import Mathlib

/-!
Verification of the `use_with` resource-scoping library (src/src/lib.rs).

The library exposes a trait `Use` with two provided methods and one macro:

  - `use_with`       : `fn use_with<U, F: FnOnce(Self) -> U>(self, f: F) -> U { f(self) }`
  - `use_with_async` : `fn use_with_async<F, Fut, U>(self, f: F) -> impl Future<Output = U> + Send
                        { async { f(self).await } }`
  - `using!`         : `(resource, param -> { body })  =>  { let param = resource; body }`
  - a blanket implementation `impl<T> Use for T {}`.

We embed the code three ways, all directly from the source:

  1. a pure value-level embedding (`Use.use_with`, `Use.use_with_async` over an
     inductive future type `Fut`) for the result pass-through claims;
  2. an instrumented trace embedding (`use_with_traced`, `use_with_async_traced`
     over `IFut`), in which Rust's ownership semantics are made explicit: the
     caller-supplied operation owns the resource, so the language runs the
     resource's destructor exactly when the operation's scope ends — after the
     body finishes, on both the normal and the unwinding (panic) path.
     The runner's own code adds nothing but the single invocation of the body;
  3. a state-passing embedding (`use_with_st`) for side-effect visibility.
-/

namespace UseWith

/-- Outcome of running a caller-supplied operation: a normal return carrying a
value, or a panic carrying the panic message. The runners never construct,
inspect or translate outcomes; a panic unwinds through them unchanged. -/
inductive Outcome (U : Type) where
  | ok (value : U)
  | panicked (msg : String)
deriving DecidableEq, Repr

/-- Events observable while a scope runner executes:
`call` marks the (single) entry into the caller-supplied body with the resource
bound to its parameter, `drop` marks the run of the resource's destructor, and
`mark n` is an arbitrary event emitted by the operation's own body. -/
inductive Event where
  | call
  | drop
  | mark (tag : Nat)
deriving DecidableEq, Repr

/-- Shallow embedding of `Use::use_with` (src/src/lib.rs:86-91): the entire body
is the application `f(self)`. -/
def Use.use_with {T U : Type} (resource : T) (f : T → U) : U :=
  f resource

/-- A deferred computation: either already resolved to a value, or one
suspension point followed by the rest of the computation. This models the
`Future` a Rust async block compiles to, with `pending` a poll that returns
`Poll::Pending` and `ready` the poll that returns `Poll::Ready`. -/
inductive Fut (U : Type) where
  | ready (value : U)
  | pending (next : Fut U)
deriving DecidableEq, Repr

/-- Driving a deferred computation to completion yields its value. -/
def Fut.resolve {U : Type} : Fut U → U
  | .ready u => u
  | .pending n => n.resolve

/-- The future built by `async { fut.await }`: every poll of the wrapper polls
the inner future and forwards its state, so the wrapper suspends exactly where
the inner future suspends and resolves exactly when it resolves. -/
def Fut.awaited {U : Type} : Fut U → Fut U
  | .ready u => .ready u
  | .pending n => .pending n.awaited

/-- Shallow embedding of `Use::use_with_async` (src/src/lib.rs:129-136): the
body is `async { f(self).await }` — invoke `f` on the resource and await the
future it returns, forwarding every suspension. -/
def Use.use_with_async {T U : Type} (resource : T) (f : T → Fut U) : Fut U :=
  Fut.awaited (f resource)

/-- Instrumented embedding of `Use::use_with` with Rust's ownership semantics
explicit. The operation `op` is the caller's closure body: on resource `r` it
produces an outcome together with the events its own code emits. The trait
method's code is just `f(self)`; the language semantics around it contribute
the single entry into the closure (`Event.call`) and, because the closure owns
the resource, the destructor run when its scope ends (`Event.drop`), after the
body on both the normal and the unwinding path, before control returns. -/
def use_with_traced {T U : Type} (resource : T) (op : T → Outcome U × List Event) :
    Outcome U × List Event :=
  ((op resource).1, Event.call :: ((op resource).2 ++ [Event.drop]))

/-- Instrumented embedding of the expansion of the inline-block shorthand
(src/src/lib.rs:174-180): `{ let param = resource; body }`. The body is entered
once with `param` bound to the resource (`Event.call`); `param` is owned by the
block, so its destructor runs when the block ends (`Event.drop`), after the
body on both the normal and the unwinding path. -/
def using_traced {T U : Type} (resource : T) (body : T → Outcome U × List Event) :
    Outcome U × List Event :=
  let param := resource
  ((body param).1, Event.call :: ((body param).2 ++ [Event.drop]))

/-- Pure value-level embedding of the expansion of the inline-block shorthand
(src/src/lib.rs:174-180): bind the resource to the parameter, evaluate the
block. -/
def using_pure {T U : Type} (resource : T) (body : T → U) : U :=
  let param := resource
  body param

/-- An instrumented deferred computation: each step emits a list of events;
the final step additionally carries the operation's outcome. -/
inductive IFut (U : Type) where
  | ready (out : Outcome U) (evs : List Event)
  | pending (evs : List Event) (next : IFut U)
deriving DecidableEq, Repr

/-- All events a deferred computation ever emits. -/
def IFut.events {U : Type} : IFut U → List Event
  | .ready _ e => e
  | .pending e n => e ++ n.events

/-- The events emitted strictly before the final (resolving) step: what has
been observed while the computation is still pending. -/
def IFut.pendingEvs {U : Type} : IFut U → List Event
  | .ready _ _ => []
  | .pending e n => e ++ n.pendingEvs

/-- Drive an instrumented computation to completion: the outcome of its final
step, together with every event emitted along the way, in order. -/
def IFut.run {U : Type} : IFut U → Outcome U × List Event
  | .ready o e => (o, e)
  | .pending e n => (n.run.1, e ++ n.run.2)

/-- Poll an instrumented computation `n` times: the events emitted so far and
whether it has completed within those polls. -/
def IFut.polls {U : Type} : IFut U → Nat → List Event × Bool
  | _, 0 => ([], false)
  | .ready _ e, _ + 1 => (e, true)
  | .pending e m, n + 1 => (e ++ (m.polls n).1, (m.polls n).2)

/-- Rust's ownership semantics for the operation's future: the resource is
owned by the in-flight operation, so its destructor runs exactly when the
operation's body completes (normally or by panic) — at the final step, never
at a suspension point. -/
def IFut.withDropOnComplete {U : Type} : IFut U → IFut U
  | .ready o e => .ready o (e ++ [Event.drop])
  | .pending e n => .pending e n.withDropOnComplete

/-- The instrumented future built by `async { fut.await }`: every poll polls
the inner future and forwards its events and state unchanged. -/
def IFut.awaited {U : Type} : IFut U → IFut U
  | .ready o e => .ready o e
  | .pending e n => .pending e n.awaited

/-- Prepend events to the first step of a deferred computation: they are
emitted at its first poll. -/
def IFut.prependEvs {U : Type} (es : List Event) : IFut U → IFut U
  | .ready o e => .ready o (es ++ e)
  | .pending e n => .pending (es ++ e) n

/-- Instrumented embedding of `Use::use_with_async` (src/src/lib.rs:129-136).
The returned future is `async { f(self).await }`: at its first poll it invokes
`f` on the resource (`Event.call`) and thereafter forwards every poll to the
operation's future; the resource is owned by the in-flight operation, so the
language runs its destructor when that future completes. -/
def use_with_async_traced {T U : Type} (resource : T) (op : T → IFut U) : IFut U :=
  IFut.prependEvs [Event.call] (IFut.awaited (IFut.withDropOnComplete (op resource)))

/-- State-passing embedding of `Use::use_with` for operations that mutate state
captured from the enclosing scope: the runner's body is still just `f(self)`,
with the captured state threaded through the operation. -/
def use_with_st {T U σ : Type} (resource : T) (op : T → σ → U × σ) (s : σ) : U × σ :=
  op resource s

/-- The `Use` trait as an interface: it declares no required items (both of its
methods are provided with default bodies), so an implementation imposes no
obligations. -/
class UseTrait (T : Type) : Prop where
  no_required_items : True

/-- The blanket implementation `impl<T> Use for T {}` (src/src/lib.rs:139):
every type implements `Use`, with no trait bounds and an empty body. -/
instance useBlanketImpl (T : Type) : UseTrait T := ⟨trivial⟩

/-- A concrete instrumented synchronous operation used to witness the general
theorems: it succeeds with 42 and emits one body event. -/
def demoOp : Unit → Outcome Nat × List Event :=
  fun _ => (Outcome.ok 42, [Event.mark 0])

/-- A concrete instrumented synchronous operation that panics with the message
"Intentional panic" after emitting one body event. -/
def demoPanicOp : Unit → Outcome Nat × List Event :=
  fun _ => (Outcome.panicked "Intentional panic", [Event.mark 3])

/-- A concrete instrumented asynchronous operation used to witness the general
theorems: one suspension point, then resolution with 7. -/
def demoOpA : Unit → IFut Nat :=
  fun _ => IFut.pending [Event.mark 1] (IFut.ready (Outcome.ok 7) [Event.mark 2])

/-- Driving the wrapper built by the await-forwarding async block resolves to
the same value as driving the inner future. -/
theorem Fut.resolve_awaited {U : Type} (f : Fut U) : f.awaited.resolve = f.resolve := by
  induction f with
  | ready u => rfl
  | pending n ih => simpa [Fut.awaited, Fut.resolve] using ih

/-- The await-forwarding wrapper preserves the outcome and the full trace. -/
theorem IFut.run_awaited {U : Type} (f : IFut U) : f.awaited.run = f.run := by
  induction f with
  | ready o e => rfl
  | pending e n ih => simp [IFut.awaited, IFut.run, ih]

/-- Making the destructor explicit appends exactly one drop event at the very
end of the completed trace and leaves the outcome unchanged. -/
theorem IFut.run_withDropOnComplete {U : Type} (f : IFut U) :
    f.withDropOnComplete.run = (f.run.1, f.run.2 ++ [Event.drop]) := by
  induction f with
  | ready o e => rfl
  | pending e n ih => simp [IFut.withDropOnComplete, IFut.run, ih]

/-- Prepended events appear at the front of the completed trace. -/
theorem IFut.run_prependEvs {U : Type} (es : List Event) (f : IFut U) :
    (IFut.prependEvs es f).run = (f.run.1, es ++ f.run.2) := by
  cases f with
  | ready o e => rfl
  | pending e n => simp [IFut.prependEvs, IFut.run]

/-- The trace of a completed run is exactly the list of all events. -/
theorem IFut.run_snd_eq_events {U : Type} (f : IFut U) : f.run.2 = f.events := by
  induction f with
  | ready o e => rfl
  | pending e n ih => simp [IFut.run, IFut.events, ih]

/-- Events emitted before the final step are among the computation's events. -/
theorem IFut.mem_pendingEvs_mem_events {U : Type} (f : IFut U) (e : Event)
    (h : e ∈ f.pendingEvs) : e ∈ f.events := by
  induction f with
  | ready o ev => simp [IFut.pendingEvs] at h
  | pending ev n ih =>
    simp [IFut.pendingEvs, IFut.events] at h ⊢
    exact h.imp id ih

/-- Making the destructor explicit adds nothing to the pre-completion trace:
the drop event sits in the final step only. -/
theorem IFut.pendingEvs_withDropOnComplete {U : Type} (f : IFut U) :
    f.withDropOnComplete.pendingEvs = f.pendingEvs := by
  induction f with
  | ready o e => rfl
  | pending e n ih => simp [IFut.withDropOnComplete, IFut.pendingEvs, ih]

/-- The await-forwarding wrapper preserves the pre-completion trace. -/
theorem IFut.pendingEvs_awaited {U : Type} (f : IFut U) :
    f.awaited.pendingEvs = f.pendingEvs := by
  induction f with
  | ready o e => rfl
  | pending e n ih => simp [IFut.awaited, IFut.pendingEvs, ih]

/-- An event in the pre-completion trace after prepending comes either from the
prepended events or from the original pre-completion trace. -/
theorem IFut.mem_pendingEvs_prependEvs {U : Type} (es : List Event) (f : IFut U)
    (e : Event) (h : e ∈ (IFut.prependEvs es f).pendingEvs) :
    e ∈ es ∨ e ∈ f.pendingEvs := by
  cases f with
  | ready o ev => simp [IFut.prependEvs, IFut.pendingEvs] at h
  | pending ev n =>
    simp [IFut.prependEvs, IFut.pendingEvs] at h ⊢
    tauto

/-- Any event observed in an incomplete sequence of polls belongs to the
pre-completion trace. -/
theorem IFut.mem_polls_incomplete {U : Type} :
    ∀ (n : Nat) (f : IFut U), (f.polls n).2 = false →
      ∀ e ∈ (f.polls n).1, e ∈ f.pendingEvs := by
  intro n
  induction n with
  | zero =>
    intro f h e he
    simp [IFut.polls] at he
  | succ n ih =>
    intro f h e he
    cases f with
    | ready o ev => simp [IFut.polls] at h
    | pending ev m =>
      simp only [IFut.polls, List.mem_append] at h he
      simp only [IFut.pendingEvs, List.mem_append]
      exact he.imp id (ih m h e)

/-- Claim C1: the synchronous runner returns exactly the value the operation
returns, unmodified, for every resource and operation; in particular with
resource 10 and the operation adding 32 the result is 42. -/
theorem use_with_result_passthrough :
    (∀ (T U : Type) (r : T) (f : T → U), Use.use_with r f = f r) ∧
    Use.use_with (10 : Nat) (fun x => x + 32) = 42 := by
  exact ⟨fun _ _ _ _ => rfl, rfl⟩

/-- Claim C2: for every resource accepted by either scope runner, and every
operation that does not itself destroy the resource mid-body, the resource's
destructor runs exactly once over the whole invocation — the completed trace
contains exactly one drop event — whether the operation succeeds or panics. -/
theorem exactly_once_destruction {T U : Type} (r : T)
    (op : T → Outcome U × List Event) (opA : T → IFut U)
    (h1 : Event.drop ∉ (op r).2) (h2 : Event.drop ∉ (opA r).events) :
    (use_with_traced r op).2.count Event.drop = 1 ∧
    (use_with_async_traced r opA).run.2.count Event.drop = 1 := by
  constructor
  · simp [use_with_traced, List.count_cons, List.count_append,
      List.count_eq_zero.mpr h1]
  · have hz : (opA r).run.2.count Event.drop = 0 := by
      rw [IFut.run_snd_eq_events]
      exact List.count_eq_zero.mpr h2
    simp [use_with_async_traced, IFut.run_prependEvs, IFut.run_awaited,
      IFut.run_withDropOnComplete, List.count_cons, List.count_append, hz]

/-- Witness for C2: the concrete resource `()` with the concrete succeeding
operations `demoOp` and `demoOpA`. -/
theorem exactly_once_destruction_witness :
    Event.drop ∉ (demoOp ()).2 ∧ Event.drop ∉ (demoOpA ()).events ∧
    ((use_with_traced () demoOp).2.count Event.drop = 1 ∧
      (use_with_async_traced () demoOpA).run.2.count Event.drop = 1) :=
  ⟨by decide, by decide, exactly_once_destruction () demoOp demoOpA (by decide) (by decide)⟩

/-- Claim C3: if the operation panics, the synchronous runner propagates the
identical panic to its caller — same outcome, same message, not caught or
translated — and the resource's destructor has run exactly once, as the last
event before the panic reaches the caller. -/
theorem panic_propagates_after_drop {T U : Type} (r : T)
    (op : T → Outcome U × List Event) (msg : String)
    (h : (op r).1 = Outcome.panicked msg) (hd : Event.drop ∉ (op r).2) :
    (use_with_traced r op).1 = Outcome.panicked msg ∧
    (use_with_traced r op).2.count Event.drop = 1 ∧
    (use_with_traced r op).2.getLast? = some Event.drop := by
  refine ⟨h, ?_, ?_⟩
  · simp [use_with_traced, List.count_cons, List.count_append,
      List.count_eq_zero.mpr hd]
  · show (Event.call :: ((op r).2 ++ [Event.drop])).getLast? = some Event.drop
    rw [← List.cons_append]
    exact List.getLast?_concat _

/-- Witness for C3: the concrete operation `demoPanicOp`, which panics with the
message "Intentional panic". -/
theorem panic_propagates_after_drop_witness :
    (demoPanicOp ()).1 = Outcome.panicked "Intentional panic" ∧
    Event.drop ∉ (demoPanicOp ()).2 ∧
    ((use_with_traced () demoPanicOp).1 = Outcome.panicked "Intentional panic" ∧
      (use_with_traced () demoPanicOp).2.count Event.drop = 1 ∧
      (use_with_traced () demoPanicOp).2.getLast? = some Event.drop) :=
  ⟨by decide, by decide,
    panic_propagates_after_drop () demoPanicOp "Intentional panic" (by decide) (by decide)⟩

/-- Claim C4: the asynchronous runner returns a deferred computation that, when
driven to completion, yields exactly the value the operation's own deferred
computation resolves to. -/
theorem use_with_async_result_passthrough :
    ∀ (T U : Type) (r : T) (f : T → Fut U),
      (Use.use_with_async r f).resolve = (f r).resolve := by
  intro T U r f
  exact Fut.resolve_awaited (f r)

/-- Claim C5: resource destruction is strictly ordered after the full
completion of the operation: for the synchronous runner the drop event is the
unique final event of the trace; for the asynchronous runner the drop event is
the unique final event of the completed run, and no sequence of polls that
leaves the returned computation still pending ever observes a drop. -/
theorem destruction_after_completion {T U : Type} (r : T)
    (op : T → Outcome U × List Event) (opA : T → IFut U)
    (h1 : Event.drop ∉ (op r).2) (h2 : Event.drop ∉ (opA r).events) :
    ((use_with_traced r op).2.getLast? = some Event.drop ∧
      (use_with_traced r op).2.count Event.drop = 1) ∧
    ((use_with_async_traced r opA).run.2.getLast? = some Event.drop ∧
      (use_with_async_traced r opA).run.2.count Event.drop = 1) ∧
    (∀ n, ((use_with_async_traced r opA).polls n).2 = false →
      Event.drop ∉ ((use_with_async_traced r opA).polls n).1) := by
  refine ⟨⟨?_, ?_⟩, ⟨?_, ?_⟩, ?_⟩
  · show (Event.call :: ((op r).2 ++ [Event.drop])).getLast? = some Event.drop
    rw [← List.cons_append]
    exact List.getLast?_concat _
  · simp [use_with_traced, List.count_cons, List.count_append,
      List.count_eq_zero.mpr h1]
  · rw [show (use_with_async_traced r opA).run.2
        = Event.call :: ((opA r).run.2 ++ [Event.drop]) by
      simp [use_with_async_traced, IFut.run_prependEvs, IFut.run_awaited,
        IFut.run_withDropOnComplete]]
    rw [← List.cons_append]
    exact List.getLast?_concat _
  · have hz : (opA r).run.2.count Event.drop = 0 := by
      rw [IFut.run_snd_eq_events]
      exact List.count_eq_zero.mpr h2
    simp [use_with_async_traced, IFut.run_prependEvs, IFut.run_awaited,
      IFut.run_withDropOnComplete, List.count_cons, List.count_append, hz]
  · intro n hpend hmem
    have hp := IFut.mem_polls_incomplete n (use_with_async_traced r opA) hpend
      Event.drop hmem
    rcases IFut.mem_pendingEvs_prependEvs [Event.call]
        (IFut.awaited (IFut.withDropOnComplete (opA r))) Event.drop hp with hc | hrest
    · simp at hc
    · rw [IFut.pendingEvs_awaited, IFut.pendingEvs_withDropOnComplete] at hrest
      exact h2 (IFut.mem_pendingEvs_mem_events (opA r) Event.drop hrest)

/-- Witness for C5: the concrete resource `()` with the succeeding operations
`demoOp` and `demoOpA`. -/
theorem destruction_after_completion_witness :
    Event.drop ∉ (demoOp ()).2 ∧ Event.drop ∉ (demoOpA ()).events ∧
    (((use_with_traced () demoOp).2.getLast? = some Event.drop ∧
        (use_with_traced () demoOp).2.count Event.drop = 1) ∧
      ((use_with_async_traced () demoOpA).run.2.getLast? = some Event.drop ∧
        (use_with_async_traced () demoOpA).run.2.count Event.drop = 1) ∧
      (∀ n, ((use_with_async_traced () demoOpA).polls n).2 = false →
        Event.drop ∉ ((use_with_async_traced () demoOpA).polls n).1)) :=
  ⟨by decide, by decide,
    destruction_after_completion () demoOp demoOpA (by decide) (by decide)⟩

/-- Claim C6: the inline-block shorthand is semantically equivalent to the
synchronous runner applied to a closure wrapping the block — same value, and
the same trace (same single body entry and same destruction behaviour) in the
instrumented semantics. -/
theorem using_equiv_use_with :
    (∀ (T U : Type) (r : T) (b : T → U), using_pure r b = Use.use_with r b) ∧
    (∀ (T U : Type) (r : T) (b : T → Outcome U × List Event),
      using_traced r b = use_with_traced r b) := by
  exact ⟨fun _ _ _ _ => rfl, fun _ _ _ _ => rfl⟩

/-- Claim C7: each scope runner invokes the caller-supplied operation exactly
once on the resource — the completed trace contains exactly one entry event,
never zero (skipped) and never more (retried). -/
theorem operation_invoked_exactly_once {T U : Type} (r : T)
    (op : T → Outcome U × List Event) (opA : T → IFut U)
    (h1 : Event.call ∉ (op r).2) (h2 : Event.call ∉ (opA r).events) :
    (use_with_traced r op).2.count Event.call = 1 ∧
    (use_with_async_traced r opA).run.2.count Event.call = 1 := by
  constructor
  · simp [use_with_traced, List.count_cons, List.count_append,
      List.count_eq_zero.mpr h1]
  · have hz : (opA r).run.2.count Event.call = 0 := by
      rw [IFut.run_snd_eq_events]
      exact List.count_eq_zero.mpr h2
    simp [use_with_async_traced, IFut.run_prependEvs, IFut.run_awaited,
      IFut.run_withDropOnComplete, List.count_cons, List.count_append, hz]

/-- Witness for C7: the concrete resource `()` with the concrete operations
`demoOp` and `demoOpA`. -/
theorem operation_invoked_exactly_once_witness :
    Event.call ∉ (demoOp ()).2 ∧ Event.call ∉ (demoOpA ()).events ∧
    ((use_with_traced () demoOp).2.count Event.call = 1 ∧
      (use_with_async_traced () demoOpA).run.2.count Event.call = 1) :=
  ⟨by decide, by decide,
    operation_invoked_exactly_once () demoOp demoOpA (by decide) (by decide)⟩

/-- Claim C8: the runner performs no side effects beyond the operation's own:
with captured state threaded explicitly, the runner's result and final state
are exactly those produced by the operation itself, so every mutation the
operation makes is visible to the caller and nothing else changes; in
particular an external counter incremented from 0 by the operation reads 1
afterwards. -/
theorem no_side_effects_beyond_operation :
    (∀ (T U σ : Type) (r : T) (op : T → σ → U × σ) (s : σ),
      use_with_st r op s = op r s) ∧
    use_with_st () (fun _ c => ((), c + 1)) 0 = ((), 1) := by
  exact ⟨fun _ _ _ _ _ _ => rfl, rfl⟩

/-- Claim C10: the trait is blanket-implemented for every type with no bounds
and no required items, so `use_with` is available on every owned value of any
type, behaving as the application of the operation. -/
theorem use_available_for_every_type :
    ∀ (T : Type), UseTrait T ∧ ∀ (U : Type) (r : T) (f : T → U), Use.use_with r f = f r :=
  fun T => ⟨useBlanketImpl T, fun _ _ _ => rfl⟩

end UseWith
